import Mathlib

/-!
Verification development for `torchdata/dataloader2/reading_service.py`.

The Python source is shallowly embedded below:
* `_IterateQueueDataPipes.__iter__` (the merge iterator over per-worker queue
  wrappers) is embedded as `pollLoop` / `scanGo` / `mergeLoop` /
  `iterateQueueDataPipes`, with each worker abstracted by its finite script of
  responses to successive `nonblocking_next()` calls;
* `PrototypeMultiProcessingReadingService` (worker pool lifecycle) is embedded
  as `PrototypeMultiProcessingReadingService` / `initService` / `finalizeService`;
* `DistributedReadingService` is embedded as `DistributedReadingService` /
  `mkDistributedReadingService` / `distInitService`.
-/

/-- One scripted response of a worker to a `nonblocking_next()` call:
either a produced item (`val a`) or the `NotAvailable` exception (`busy`).
A worker whose remaining script is empty raises `StopIteration`. -/
inductive WResp (α : Type) where
  | val (a : α)
  | busy
deriving DecidableEq, Repr

/-- Observable events of one run of `_IterateQueueDataPipes.__iter__`:
`poll i` is a call `dp.nonblocking_next()` on worker `i`; `sleep` is
`time.sleep(0.001)`; `yieldv a` is `yield value`; `exclude i` is
`exclude_datapipes.append(dp)` for worker `i`. -/
inductive MEvent (α : Type) where
  | poll (i : Nat)
  | sleep
  | yieldv (a : α)
  | exclude (i : Nat)
deriving DecidableEq, Repr

/-- The inner `while forever:` loop of `_IterateQueueDataPipes.__iter__`
for one datapipe `i`: call `nonblocking_next()`; on `NotAvailable` sleep
1 ms and retry the same datapipe; on a value, yield it and stop; on
`StopIteration` mark the datapipe for exclusion and stop.  Returns the
trace of events, the yielded value (`none` when the worker reported
end of stream), and the worker's remaining response script. -/
def pollLoop {α : Type} (i : Nat) : List (WResp α) → List (MEvent α) × Option α × List (WResp α)
  | [] => ([MEvent.poll i, MEvent.exclude i], none, [])
  | WResp.val a :: rest => ([MEvent.poll i, MEvent.yieldv a], some a, rest)
  | WResp.busy :: rest =>
      (MEvent.poll i :: MEvent.sleep :: (pollLoop i rest).1,
       (pollLoop i rest).2.1, (pollLoop i rest).2.2)

/-- The `for dp in self.datapipes:` body of `_IterateQueueDataPipes.__iter__`,
starting at worker index `i`: skip workers already in `exclude_datapipes`
(modelled by their indices in `excl`), otherwise run the inner poll loop.
Returns the trace, the updated worker scripts (in pool order), and the
updated exclusion list. -/
def scanGo {α : Type} : Nat → List (List (WResp α)) → List Nat →
    List (MEvent α) × List (List (WResp α)) × List Nat
  | _, [], excl => ([], [], excl)
  | i, s :: rest, excl =>
    if i ∈ excl then
      ((scanGo (i+1) rest excl).1,
       s :: (scanGo (i+1) rest excl).2.1,
       (scanGo (i+1) rest excl).2.2)
    else
      match (pollLoop i s).2.1 with
      | some _ =>
        ((pollLoop i s).1 ++ (scanGo (i+1) rest excl).1,
         (pollLoop i s).2.2 :: (scanGo (i+1) rest excl).2.1,
         (scanGo (i+1) rest excl).2.2)
      | none =>
        ((pollLoop i s).1 ++ (scanGo (i+1) rest (excl ++ [i])).1,
         (pollLoop i s).2.2 :: (scanGo (i+1) rest (excl ++ [i])).2.1,
         (scanGo (i+1) rest (excl ++ [i])).2.2)

/-- The outer `while len(exclude_datapipes) < len(self.datapipes):` loop of
`_IterateQueueDataPipes.__iter__`, with an explicit fuel bound (`none` means
the fuel ran out before the loop exited). -/
def mergeLoop {α : Type} : Nat → List (List (WResp α)) → List Nat →
    Option (List (MEvent α) × List (List (WResp α)) × List Nat)
  | 0, _, _ => none
  | fuel+1, ws, excl =>
    if excl.length < ws.length then
      match mergeLoop fuel (scanGo 0 ws excl).2.1 (scanGo 0 ws excl).2.2 with
      | none => none
      | some r2 => some ((scanGo 0 ws excl).1 ++ r2.1, r2.2.1, r2.2.2)
    else some ([], ws, excl)

/-- Total number of pending responses over all worker scripts. -/
def wlen {α : Type} (ws : List (List (WResp α))) : Nat := (ws.map List.length).sum

/-- The item carried by a scripted response, if any. -/
def vof {α : Type} : WResp α → Option α
  | WResp.val a => some a
  | WResp.busy => none

/-- The items of one worker script, as a multiset. -/
def svals {α : Type} (s : List (WResp α)) : Multiset α := ↑(s.filterMap vof)

/-- The union (multiset sum) of every worker's items. -/
def wvals {α : Type} (ws : List (List (WResp α))) : Multiset α := (ws.map svals).sum

/-- The values yielded along a trace, in order. -/
def yieldsList {α : Type} (tr : List (MEvent α)) : List α :=
  tr.filterMap fun e => match e with | MEvent.yieldv a => some a | _ => none

/-- The values yielded along a trace, as a multiset. -/
def yieldsOf {α : Type} (tr : List (MEvent α)) : Multiset α := ↑(yieldsList tr)

/-- Number of `time.sleep` calls in a trace. -/
def sleepCount {α : Type} (tr : List (MEvent α)) : Nat :=
  tr.countP fun e => match e with | MEvent.sleep => true | _ => false

/-- A complete run of `_IterateQueueDataPipes.__iter__` on worker scripts
`ws`, starting with an empty exclusion list.  The fuel
`wlen ws + ws.length + 1` dominates the number of outer loop iterations
(each full scan either consumes a script entry or excludes a worker). -/
def iterateQueueDataPipes {α : Type} (ws : List (List (WResp α))) :
    Option (List (MEvent α) × List (List (WResp α)) × List Nat) :=
  mergeLoop (wlen ws + ws.length + 1) ws []

/-- `tr` never polls a worker again after excluding it. -/
def noPollAfterExclude {α : Type} (tr : List (MEvent α)) : Prop :=
  ∀ t1 i t2, tr = t1 ++ MEvent.exclude i :: t2 → MEvent.poll i ∉ t2

/-- Invariant of the merge loop state: the exclusion list holds distinct
in-range worker indices, and every excluded worker's script is exhausted. -/
def MergeInv {α : Type} (ws : List (List (WResp α))) (excl : List Nat) : Prop :=
  excl.Nodup ∧ (∀ j ∈ excl, j < ws.length) ∧ (∀ j ∈ excl, ws.getD j [] = [])

/-- Number of workers at indices `i, i+1, ...` (one per list entry) that are
not in the exclusion list. -/
def activeCount {α : Type} : Nat → List (List (WResp α)) → List Nat → Nat
  | _, [], _ => 0
  | i, _ :: rest, excl => (if i ∈ excl then 0 else 1) + activeCount (i+1) rest excl

/-- Number of leading `busy` responses of a script. -/
def leadingBusy {α : Type} : List (WResp α) → Nat
  | WResp.busy :: rest => leadingBusy rest + 1
  | _ => 0

/-- First item of a script, skipping leading `busy` responses. -/
def firstVal {α : Type} : List (WResp α) → Option α
  | [] => none
  | WResp.busy :: rest => firstVal rest
  | WResp.val a :: _ => some a

/-- Remainder of a script after its first item (empty when there is none). -/
def afterFirstVal {α : Type} : List (WResp α) → List (WResp α)
  | [] => []
  | WResp.busy :: rest => afterFirstVal rest
  | WResp.val _ :: rest => rest

/-- `n` repetitions of `poll i` followed by `sleep`, then `tail`: the trace
shape of the inner poll loop while the worker keeps answering `busy`. -/
def pollTrace {α : Type} (i : Nat) : Nat → List (MEvent α) → List (MEvent α)
  | 0, tail => tail
  | n+1, tail => MEvent.poll i :: MEvent.sleep :: pollTrace i n tail

/-- The final two events of one inner poll loop: the last poll followed by
the yielded value, or by the exclusion when the worker raised
`StopIteration`. -/
def pollTail {α : Type} (i : Nat) : Option α → List (MEvent α)
  | some a => [MEvent.poll i, MEvent.yieldv a]
  | none => [MEvent.poll i, MEvent.exclude i]

/-- The items one full scan cycle yields: for each worker not in the
exclusion list, in pool order, its first available value (if any). -/
def scanYields {α : Type} : Nat → List (List (WResp α)) → List Nat → List α
  | _, [], _ => []
  | i, s :: rest, excl =>
    (if i ∈ excl then [] else (firstVal s).toList) ++ scanYields (i+1) rest excl

/-- Result of one scan in the specification's reading of the merge loop:
trace, number of still-active workers polled, number of those that
answered `Busy`, updated scripts and exclusion list. -/
structure SpecScanRes (α : Type) where
  tr : List (MEvent α)
  polled : Nat
  busies : Nat
  ws : List (List (WResp α))
  excl : List Nat
deriving DecidableEq, Repr

/-- The scan cycle exactly as §4.3 of the specification words it: for each
worker not yet excluded, in pool order, poll once; on a value yield it and
move on; on end of stream exclude and move on; on `Busy` leave the worker
to be retried on the next scan (no immediate re-poll, no sleep here). -/
def specScanGo {α : Type} : Nat → List (List (WResp α)) → List Nat → SpecScanRes α
  | _, [], excl => ⟨[], 0, 0, [], excl⟩
  | i, s :: rest, excl =>
    if i ∈ excl then
      let r := specScanGo (i+1) rest excl
      ⟨r.tr, r.polled, r.busies, s :: r.ws, r.excl⟩
    else
      match s with
      | [] =>
        let r := specScanGo (i+1) rest (excl ++ [i])
        ⟨MEvent.poll i :: MEvent.exclude i :: r.tr, r.polled + 1, r.busies, [] :: r.ws, r.excl⟩
      | WResp.busy :: s' =>
        let r := specScanGo (i+1) rest excl
        ⟨MEvent.poll i :: r.tr, r.polled + 1, r.busies + 1, s' :: r.ws, r.excl⟩
      | WResp.val a :: s' =>
        let r := specScanGo (i+1) rest excl
        ⟨MEvent.poll i :: MEvent.yieldv a :: r.tr, r.polled + 1, r.busies, s' :: r.ws, r.excl⟩

/-- The merge loop exactly as §4.3 of the specification words it: rescan
while some worker is active, and apply the fixed backoff delay only when
every still-active worker reported `Busy` during the previous scan. -/
def specMergeLoop {α : Type} : Nat → List (List (WResp α)) → List Nat →
    Option (List (MEvent α) × List (List (WResp α)) × List Nat)
  | 0, _, _ => none
  | fuel+1, ws, excl =>
    if excl.length < ws.length then
      let r := specScanGo 0 ws excl
      let tr1 := if 0 < r.polled ∧ r.busies = r.polled then r.tr ++ [MEvent.sleep] else r.tr
      match specMergeLoop fuel r.ws r.excl with
      | none => none
      | some r2 => some (tr1 ++ r2.1, r2.2.1, r2.2.2)
    else some ([], ws, excl)

/-- A complete run of the specification's reading of the merge iterator. -/
def specMergeRun {α : Type} (ws : List (List (WResp α))) :
    Option (List (MEvent α) × List (List (WResp α)) × List Nat) :=
  specMergeLoop (wlen ws + ws.length + 1) ws []

/-! ## Pipeline graphs and sharding -/

/-- A datapipe graph.  The outermost constructor is the tail (last stage) of
the pipeline; `fullsync t inner` is `FullSync(inner, timeout=t)` as produced
by `inner.fullsync(t)`.  Every non-`fullsync` node carries an optional
sharding assignment `(shard count, shard index)`. -/
inductive DataPipe where
  | source (shard : Option (Nat × Nat))
  | stage (shard : Option (Nat × Nat)) (inner : DataPipe)
  | fullsync (timeout : Nat) (inner : DataPipe)
deriving DecidableEq, Repr

/-- Modelled from the spec: `torch.utils.data.graph_settings.apply_sharding`
is the external "apply sharding" capability (out of scope, specified at its
interface).  It mutates the graph in place, recording the sharding
assignment `(n, i)` on the sharding-capable nodes, and leaves the graph's
shape — in particular its outermost constructor — unchanged. -/
def apply_sharding : DataPipe → Nat → Nat → DataPipe
  | DataPipe.source _, n, i => DataPipe.source (some (n, i))
  | DataPipe.stage _ inner, n, i => DataPipe.stage (some (n, i)) (apply_sharding inner n i)
  | DataPipe.fullsync t inner, n, i => DataPipe.fullsync t (apply_sharding inner n i)

/-- `isinstance(datapipe, FullSync)`: does the pipeline end in a full-sync
stage? -/
def isFullSync : DataPipe → Bool
  | DataPipe.fullsync _ _ => true
  | _ => false

/-! ## PrototypeMultiProcessingReadingService -/

/-- `PrototypeMultiProcessingReadingService.init_datapipe_process`: applies
sharding with `(num_workers, worker_id)`; run inside the worker process
before it produces its first item. -/
def init_datapipe_process (num_workers worker_id : Nat) (datapipe : DataPipe) : DataPipe :=
  apply_sharding datapipe num_workers worker_id

/-- A spawned worker process, holding the pipeline it iterates (with the
per-worker initialization already applied). -/
structure WorkerProcess where
  pipeline : DataPipe
deriving DecidableEq, Repr

/-- One entry of `self.processes`: the tuple `(process, req_queue, res_queue)`.
Queues are identified by a `Nat` name. -/
structure ProcEntry where
  process : WorkerProcess
  req_queue : Nat
  res_queue : Nat
deriving DecidableEq, Repr

/-- One entry of `self.datapipes`: the
`QueueWrapper(IterDataPipeQueueProtocolClient(req_queue, res_queue))`
handle, recorded by the identities of the two queues it is wired to. -/
structure QueueWrapper where
  req_queue : Nat
  res_queue : Nat
deriving DecidableEq, Repr

/-- Modelled from the spec:
`communication.eventloop.SpawnProcessForDataPipeline(ctx, datapipe, call_inside)`
(repository code not under `src/`) creates one fresh request/response queue
pair and a worker process that applies `call_inside` to the datapipe before
producing its first item.  Fresh queue identities are drawn from the counter
`fresh` (modelling that each call constructs brand-new queue objects). -/
def SpawnProcessForDataPipeline (fresh : Nat) (datapipe : DataPipe)
    (call_inside : DataPipe → DataPipe) : WorkerProcess × Nat × Nat :=
  (⟨call_inside datapipe⟩, fresh, fresh + 1)

/-- The mutable state of a `PrototypeMultiProcessingReadingService`:
`num_workers`, the `processes` list and the `datapipes` list. -/
structure PrototypeMultiProcessingReadingService where
  num_workers : Nat
  processes : List ProcEntry
  datapipes : List QueueWrapper
deriving DecidableEq, Repr

/-- What `PrototypeMultiProcessingReadingService.initialize` returns: either
the input datapipe untouched (`num_workers == 0`) or
`IterableWrapper(_IterateQueueDataPipes(self.datapipes), deepcopy=False)`
over the service's queue wrappers. -/
inductive ReturnedPipe where
  | passthrough (datapipe : DataPipe)
  | merged (datapipes : List QueueWrapper)
deriving DecidableEq, Repr

/-- The `for worker_id in range(num_workers):` loop body of
`PrototypeMultiProcessingReadingService.initialize`, over the remaining
worker ids: spawn a process with
`functools.partial(init_datapipe_process, num_workers, worker_id)`, and
build the corresponding queue-wrapper entry.  Two fresh queue names are
consumed per worker. -/
def initLoop (num_workers : Nat) (datapipe : DataPipe) :
    List Nat → Nat → List ProcEntry × List QueueWrapper
  | [], _ => ([], [])
  | worker_id :: rest, fresh =>
    ((⟨(SpawnProcessForDataPipeline fresh datapipe
          (init_datapipe_process num_workers worker_id)).1,
       (SpawnProcessForDataPipeline fresh datapipe
          (init_datapipe_process num_workers worker_id)).2.1,
       (SpawnProcessForDataPipeline fresh datapipe
          (init_datapipe_process num_workers worker_id)).2.2⟩ :
        ProcEntry) :: (initLoop num_workers datapipe rest (fresh + 2)).1,
     (⟨(SpawnProcessForDataPipeline fresh datapipe
          (init_datapipe_process num_workers worker_id)).2.1,
       (SpawnProcessForDataPipeline fresh datapipe
          (init_datapipe_process num_workers worker_id)).2.2⟩ :
        QueueWrapper) :: (initLoop num_workers datapipe rest (fresh + 2)).2)

/-- `PrototypeMultiProcessingReadingService.initialize`: for
`num_workers == 0` return the input datapipe unchanged; otherwise spawn one
process per worker id in `range(num_workers)`, appending to `self.processes`
and `self.datapipes`, and return the merge wrapper over `self.datapipes`. -/
def initService (s : PrototypeMultiProcessingReadingService) (datapipe : DataPipe)
    (fresh : Nat) : PrototypeMultiProcessingReadingService × ReturnedPipe :=
  if s.num_workers = 0 then (s, ReturnedPipe.passthrough datapipe)
  else
    ({ s with
        processes := s.processes ++ (initLoop s.num_workers datapipe (List.range s.num_workers) fresh).1,
        datapipes := s.datapipes ++ (initLoop s.num_workers datapipe (List.range s.num_workers) fresh).2 },
     ReturnedPipe.merged
       (s.datapipes ++ (initLoop s.num_workers datapipe (List.range s.num_workers) fresh).2))

/-- The `clean_me` loop of `PrototypeMultiProcessingReadingService.finalize`
over the remaining `self.processes`.  `ack r` tells whether the worker
reading request queue paired with response queue `r` will ever answer the
`TerminateRequest` put on its request queue; `res_queue.get()` is a blocking
read with **no timeout**, so a worker that never answers blocks the call
forever.  Returns the request-queue ids that received a `TerminateRequest`,
in order, and `some r` when the loop is blocked forever on response queue
`r` (in which case the remaining entries are never reached). -/
def finalizeLoop (ack : Nat → Bool) : List ProcEntry → List Nat × Option Nat
  | [] => ([], none)
  | e :: rest =>
    if ack e.res_queue then
      ((finalizeLoop ack rest).1.cons e.req_queue, (finalizeLoop ack rest).2)
    else ([e.req_queue], some e.res_queue)

/-- `PrototypeMultiProcessingReadingService.finalize`: terminate every
worker in `self.processes` via `clean_me`, then set `self.processes = []`.
Returns the new state, the terminate messages sent (by request-queue id)
and `some r` when the call blocked forever waiting on response queue `r`
(in which case `self.processes = []` is never executed and the state is
left as it was). -/
def finalizeService (ack : Nat → Bool) (s : PrototypeMultiProcessingReadingService) :
    PrototypeMultiProcessingReadingService × List Nat × Option Nat :=
  match (finalizeLoop ack s.processes).2 with
  | some r => (s, (finalizeLoop ack s.processes).1, some r)
  | none => ({ s with processes := [] }, (finalizeLoop ack s.processes).1, none)

/-! ## DistributedReadingService -/

/-- The ambient `torch.distributed` runtime, specified at its interface:
whether it is available in the process, whether the caller has started it
(`dist.is_initialized()`), and the world size / rank it reports. -/
structure DistRuntime where
  available : Bool
  inited : Bool
  world_size : Nat
  rank : Nat
deriving DecidableEq, Repr

/-- The fields of a `DistributedReadingService` instance: `_world_size`,
`_rank`, `_timeout` and the process group `_pg` (recorded by the timeout it
was created with; `none` before `initialize` and after `finalize`). -/
structure DistributedReadingService where
  world_size : Nat
  rank : Nat
  timeout : Nat
  pg : Option Nat
deriving DecidableEq, Repr

/-- `DistributedReadingService.__init__`: raises when `torch.distributed`
is not available, otherwise constructs the instance with world size 1,
rank 0 and no process group. -/
def mkDistributedReadingService (rt : DistRuntime) (timeout : Nat) :
    Except String DistributedReadingService :=
  if rt.available = false then
    Except.error "Torch Distributed is required to be available"
  else Except.ok ⟨1, 0, timeout, none⟩

/-- `DistributedReadingService.initialize`: raises unless the distributed
runtime is available **and** already started by the caller; otherwise reads
world size and rank, creates the `gloo` process group with the configured
timeout, applies sharding with `(world_size, rank)` in place, and appends a
`fullsync` stage carrying the configured timeout unless the pipeline
already ends in one. -/
def distInitService (rt : DistRuntime) (s : DistributedReadingService)
    (datapipe : DataPipe) : Except String (DistributedReadingService × DataPipe) :=
  if (rt.available && rt.inited) = false then
    Except.error "Torch Distributed is required to be initialized"
  else
    Except.ok
      ({ s with world_size := rt.world_size, rank := rt.rank, pg := some s.timeout },
       if isFullSync (apply_sharding datapipe rt.world_size rt.rank) then
         apply_sharding datapipe rt.world_size rt.rank
       else DataPipe.fullsync s.timeout (apply_sharding datapipe rt.world_size rt.rank))

/-! ## Lemmas: worker pool lifecycle -/

theorem finalizeLoop_all_ack (ack : Nat → Bool) :
    ∀ ps : List ProcEntry, (∀ e ∈ ps, ack e.res_queue = true) →
      finalizeLoop ack ps = (ps.map ProcEntry.req_queue, none) := by
  intro ps
  induction ps with
  | nil => intro _; rfl
  | cons e rest ih =>
    intro h
    have he : ack e.res_queue = true := h e (List.mem_cons_self e rest)
    have hr := ih fun p hp => h p (List.mem_cons_of_mem e hp)
    simp [finalizeLoop, he, hr]

theorem finalizeLoop_blocked (ack : Nat → Bool) :
    ∀ (ps1 : List ProcEntry) (e : ProcEntry) (ps2 : List ProcEntry),
      (∀ p ∈ ps1, ack p.res_queue = true) → ack e.res_queue = false →
      finalizeLoop ack (ps1 ++ e :: ps2) =
        (ps1.map ProcEntry.req_queue ++ [e.req_queue], some e.res_queue) := by
  intro ps1
  induction ps1 with
  | nil => intro e ps2 _ he; simp [finalizeLoop, he]
  | cons p rest ih =>
    intro e ps2 h he
    have hp : ack p.res_queue = true := h p (List.mem_cons_self p rest)
    have hr := ih e ps2 (fun q hq => h q (List.mem_cons_of_mem p hq)) he
    simp [finalizeLoop, hp, hr]

theorem initLoop_length (num_workers : Nat) (datapipe : DataPipe) :
    ∀ (ids : List Nat) (fresh : Nat),
      (initLoop num_workers datapipe ids fresh).1.length = ids.length ∧
      (initLoop num_workers datapipe ids fresh).2.length = ids.length := by
  intro ids
  induction ids with
  | nil => intro fresh; exact ⟨rfl, rfl⟩
  | cons w rest ih =>
    intro fresh
    simp [initLoop, (ih (fresh + 2)).1, (ih (fresh + 2)).2]

theorem initLoop_get (num_workers : Nat) (datapipe : DataPipe) :
    ∀ (ids : List Nat) (fresh i : Nat),
      (initLoop num_workers datapipe ids fresh).1[i]? =
        (ids[i]?).map (fun w =>
          ⟨⟨apply_sharding datapipe num_workers w⟩, fresh + 2*i, fresh + 2*i + 1⟩) ∧
      (initLoop num_workers datapipe ids fresh).2[i]? =
        (ids[i]?).map (fun _ => ⟨fresh + 2*i, fresh + 2*i + 1⟩) := by
  intro ids
  induction ids with
  | nil => intro fresh i; simp [initLoop]
  | cons w rest ih =>
    intro fresh i
    cases i with
    | zero =>
      simp [initLoop, SpawnProcessForDataPipeline, init_datapipe_process]
    | succ i =>
      have h := ih (fresh + 2) i
      constructor
      · simp only [initLoop, List.getElem?_cons_succ, h.1]
        have : fresh + 2 + 2 * i = fresh + 2 * (i + 1) := by omega
        rw [this]
      · simp only [initLoop, List.getElem?_cons_succ, h.2]
        have : fresh + 2 + 2 * i = fresh + 2 * (i + 1) := by omega
        rw [this]

/-! ## Lemmas: the inner poll loop -/

theorem pollLoop_char {α : Type} (i : Nat) :
    ∀ s : List (WResp α),
      pollLoop i s =
        (pollTrace i (leadingBusy s) (pollTail i (firstVal s)), firstVal s, afterFirstVal s) := by
  intro s
  induction s with
  | nil => rfl
  | cons r rest ih =>
    cases r with
    | val a => rfl
    | busy =>
      simp [pollLoop, ih, leadingBusy, firstVal, afterFirstVal, pollTrace]

theorem pollTrace_mem {α : Type} {i : Nat} :
    ∀ (n : Nat) (tail : List (MEvent α)) (e : MEvent α),
      e ∈ pollTrace i n tail → e = MEvent.poll i ∨ e = MEvent.sleep ∨ e ∈ tail := by
  intro n
  induction n with
  | zero => intro tail e he; exact Or.inr (Or.inr he)
  | succ n ih =>
    intro tail e he
    simp only [pollTrace, List.mem_cons] at he
    rcases he with h | h | h
    · exact Or.inl h
    · exact Or.inr (Or.inl h)
    · exact ih tail e h

theorem pollTrace_yields {α : Type} {i : Nat} :
    ∀ (n : Nat) (tail : List (MEvent α)), yieldsList (pollTrace i n tail) = yieldsList tail := by
  intro n
  induction n with
  | zero => intro tail; rfl
  | succ n ih => intro tail; simp [pollTrace, yieldsList] at ih ⊢; exact ih tail

theorem pollTrace_exclude_last {α : Type} {i : Nat} :
    ∀ (n : Nat) (t1 : List (MEvent α)) (j : Nat) (t2 : List (MEvent α)),
      pollTrace i n [MEvent.poll i, MEvent.exclude i] = t1 ++ MEvent.exclude j :: t2 →
      t2 = [] := by
  intro n
  induction n with
  | zero =>
    intro t1 j t2 h
    rcases t1 with _ | ⟨a, _ | ⟨b, t1'⟩⟩
    · simp [pollTrace] at h
    · simp [pollTrace] at h; exact h.2.2
    · exfalso
      have := congrArg List.length h
      simp [pollTrace] at this
  | succ n ih =>
    intro t1 j t2 h
    rcases t1 with _ | ⟨a, _ | ⟨b, t1'⟩⟩
    · simp [pollTrace] at h
    · simp [pollTrace] at h
    · simp only [pollTrace, List.cons_append, List.cons.injEq] at h
      exact ih t1' j t2 h.2.2

theorem firstVal_some_length {α : Type} :
    ∀ (s : List (WResp α)) (a : α), firstVal s = some a → (afterFirstVal s).length < s.length := by
  intro s
  induction s with
  | nil => intro a h; simp [firstVal] at h
  | cons r rest ih =>
    intro a h
    cases r with
    | val b => simp [afterFirstVal, List.length_cons]
    | busy =>
      simp only [firstVal] at h
      have := ih a h
      simp only [afterFirstVal, List.length_cons]
      omega

theorem firstVal_none_after {α : Type} :
    ∀ s : List (WResp α), firstVal s = none → afterFirstVal s = [] := by
  intro s
  induction s with
  | nil => intro _; rfl
  | cons r rest ih =>
    intro h
    cases r with
    | val b => simp [firstVal] at h
    | busy => simp only [firstVal] at h; simpa [afterFirstVal] using ih h

theorem firstVal_vals {α : Type} :
    ∀ s : List (WResp α),
      (firstVal s).toList ++ (afterFirstVal s).filterMap vof = s.filterMap vof := by
  intro s
  induction s with
  | nil => rfl
  | cons r rest ih =>
    cases r with
    | val a => simp [firstVal, afterFirstVal, vof]
    | busy => simpa [firstVal, afterFirstVal, vof] using ih

theorem pollLoop_fst {α : Type} (i : Nat) (s : List (WResp α)) :
    (pollLoop i s).1 = pollTrace i (leadingBusy s) (pollTail i (firstVal s)) := by
  rw [pollLoop_char]

theorem pollLoop_res {α : Type} (i : Nat) (s : List (WResp α)) :
    (pollLoop i s).2.1 = firstVal s := by
  rw [pollLoop_char]

theorem pollLoop_rest {α : Type} (i : Nat) (s : List (WResp α)) :
    (pollLoop i s).2.2 = afterFirstVal s := by
  rw [pollLoop_char]

/-! ## Lemmas: one scan cycle -/

theorem scanGo_cons_skip {α : Type} {i : Nat} {excl : List Nat}
    (s : List (WResp α)) (rest : List (List (WResp α))) (h : i ∈ excl) :
    scanGo i (s :: rest) excl =
      ((scanGo (i+1) rest excl).1, s :: (scanGo (i+1) rest excl).2.1,
       (scanGo (i+1) rest excl).2.2) := by
  simp [scanGo, h]

theorem scanGo_cons_val {α : Type} {i : Nat} {excl : List Nat} {a : α}
    (s : List (WResp α)) (rest : List (List (WResp α)))
    (h : i ∉ excl) (hf : firstVal s = some a) :
    scanGo i (s :: rest) excl =
      (pollTrace i (leadingBusy s) (pollTail i (some a)) ++ (scanGo (i+1) rest excl).1,
       afterFirstVal s :: (scanGo (i+1) rest excl).2.1,
       (scanGo (i+1) rest excl).2.2) := by
  simp [scanGo, h, pollLoop_fst, pollLoop_res, pollLoop_rest, hf]

theorem scanGo_cons_eos {α : Type} {i : Nat} {excl : List Nat}
    (s : List (WResp α)) (rest : List (List (WResp α)))
    (h : i ∉ excl) (hf : firstVal s = none) :
    scanGo i (s :: rest) excl =
      (pollTrace i (leadingBusy s) (pollTail i (none : Option α)) ++
         (scanGo (i+1) rest (excl ++ [i])).1,
       ([] : List (WResp α)) :: (scanGo (i+1) rest (excl ++ [i])).2.1,
       (scanGo (i+1) rest (excl ++ [i])).2.2) := by
  simp [scanGo, h, pollLoop_fst, pollLoop_res, pollLoop_rest, hf, firstVal_none_after s hf]

theorem scanGo_length {α : Type} :
    ∀ (ws : List (List (WResp α))) (i : Nat) (excl : List Nat),
      (scanGo i ws excl).2.1.length = ws.length := by
  intro ws
  induction ws with
  | nil => intro i excl; rfl
  | cons s rest ih =>
    intro i excl
    by_cases hm : i ∈ excl
    · rw [scanGo_cons_skip s rest hm]; simp [ih rest.length]
      exact ih (i+1) excl
    · cases hf : firstVal s with
      | some a => rw [scanGo_cons_val s rest hm hf]; simp; exact ih (i+1) excl
      | none => rw [scanGo_cons_eos s rest hm hf]; simp; exact ih (i+1) (excl ++ [i])

theorem scanGo_excl_spec {α : Type} :
    ∀ (ws : List (List (WResp α))) (i : Nat) (excl : List Nat),
      ∃ new, (scanGo i ws excl).2.2 = excl ++ new ∧
        List.Pairwise (· < ·) new ∧
        ∀ j ∈ new, i ≤ j ∧ j < i + ws.length ∧ j ∉ excl := by
  intro ws
  induction ws with
  | nil => intro i excl; exact ⟨[], by simp [scanGo]⟩
  | cons s rest ih =>
    intro i excl
    by_cases hm : i ∈ excl
    · rw [scanGo_cons_skip s rest hm]
      obtain ⟨new, h1, h2, h3⟩ := ih (i+1) excl
      refine ⟨new, h1, h2, fun j hj => ?_⟩
      obtain ⟨ha, hb, hc⟩ := h3 j hj
      exact ⟨by omega, by simp only [List.length_cons]; omega, hc⟩
    · cases hf : firstVal s with
      | some a =>
        rw [scanGo_cons_val s rest hm hf]
        obtain ⟨new, h1, h2, h3⟩ := ih (i+1) excl
        refine ⟨new, h1, h2, fun j hj => ?_⟩
        obtain ⟨ha, hb, hc⟩ := h3 j hj
        exact ⟨by omega, by simp only [List.length_cons]; omega, hc⟩
      | none =>
        rw [scanGo_cons_eos s rest hm hf]
        obtain ⟨new, h1, h2, h3⟩ := ih (i+1) (excl ++ [i])
        refine ⟨i :: new, ?_, ?_, ?_⟩
        · rw [h1]; simp
        · refine List.pairwise_cons.mpr ⟨fun j hj => ?_, h2⟩
          have := (h3 j hj).1; omega
        · intro j hj
          rcases List.mem_cons.mp hj with rfl | hj'
          · exact ⟨le_refl _, by simp only [List.length_cons]; omega, hm⟩
          · obtain ⟨ha, hb, hc⟩ := h3 j hj'
            refine ⟨by omega, by simp only [List.length_cons]; omega, fun hin => hc ?_⟩
            simp [hin]

theorem scanGo_excl_mono {α : Type} (ws : List (List (WResp α))) (i : Nat) (excl : List Nat) :
    ∀ j ∈ excl, j ∈ (scanGo i ws excl).2.2 := by
  obtain ⟨new, h1, _, _⟩ := scanGo_excl_spec ws i excl
  intro j hj
  rw [h1]
  exact List.mem_append_left _ hj

theorem excl_length_le {n : Nat} {excl : List Nat} (hnd : excl.Nodup)
    (hb : ∀ j ∈ excl, j < n) : excl.length ≤ n := by
  have hsub : excl.toFinset ⊆ Finset.range n := by
    intro j hj
    rw [List.mem_toFinset] at hj
    exact Finset.mem_range.mpr (hb j hj)
  have := Finset.card_le_card hsub
  rw [List.toFinset_card_of_nodup hnd, Finset.card_range] at this
  exact this

theorem exists_not_mem_excl {n : Nat} {excl : List Nat} (hnd : excl.Nodup)
    (hb : ∀ j ∈ excl, j < n) (hlen : excl.length < n) : ∃ k, k < n ∧ k ∉ excl := by
  by_contra hc
  push_neg at hc
  have hsub : Finset.range n ⊆ excl.toFinset := by
    intro j hj
    rw [List.mem_toFinset]
    exact hc j (Finset.mem_range.mp hj)
  have := Finset.card_le_card hsub
  rw [List.toFinset_card_of_nodup hnd, Finset.card_range] at this
  omega

theorem all_mem_of_length_eq {n : Nat} {excl : List Nat} (hnd : excl.Nodup)
    (hb : ∀ j ∈ excl, j < n) (hlen : excl.length = n) : ∀ k, k < n → k ∈ excl := by
  intro k hk
  by_contra hc
  have hnd' : (k :: excl).Nodup := List.nodup_cons.mpr ⟨hc, hnd⟩
  have hb' : ∀ j ∈ k :: excl, j < n := by
    intro j hj
    rcases List.mem_cons.mp hj with rfl | hj'
    · exact hk
    · exact hb j hj'
  have := excl_length_le hnd' hb'
  rw [List.length_cons, hlen] at this
  omega

theorem yieldsList_append {α : Type} (t1 t2 : List (MEvent α)) :
    yieldsList (t1 ++ t2) = yieldsList t1 ++ yieldsList t2 := by
  simp [yieldsList, List.filterMap_append]

theorem wvals_cons {α : Type} (s : List (WResp α)) (ws : List (List (WResp α))) :
    wvals (s :: ws) = svals s + wvals ws := by
  simp [wvals]

theorem wlen_cons {α : Type} (s : List (WResp α)) (ws : List (List (WResp α))) :
    wlen (s :: ws) = s.length + wlen ws := by
  simp [wlen]

theorem svals_firstVal_some {α : Type} {s : List (WResp α)} {a : α}
    (hf : firstVal s = some a) :
    svals s = (([a] : List α) : Multiset α) + svals (afterFirstVal s) := by
  have h := firstVal_vals s
  rw [hf] at h
  simp only [Option.toList_some] at h
  rw [svals, svals, ← h, ← Multiset.coe_add]

theorem svals_firstVal_none {α : Type} {s : List (WResp α)} (hf : firstVal s = none) :
    svals s = 0 := by
  have h := firstVal_vals s
  rw [hf, firstVal_none_after s hf] at h
  simp only [Option.toList_none, List.nil_append, List.filterMap_nil] at h
  rw [svals, ← h]
  rfl

theorem scanGo_vals {α : Type} :
    ∀ (ws : List (List (WResp α))) (i : Nat) (excl : List Nat),
      yieldsOf (scanGo i ws excl).1 + wvals (scanGo i ws excl).2.1 = wvals ws := by
  intro ws
  induction ws with
  | nil => intro i excl; simp [scanGo, yieldsOf, yieldsList, wvals]
  | cons s rest ih =>
    intro i excl
    by_cases hm : i ∈ excl
    · rw [scanGo_cons_skip s rest hm, wvals_cons, wvals_cons]
      rw [← ih (i+1) excl]
      abel
    · cases hf : firstVal s with
      | some a =>
        rw [scanGo_cons_val s rest hm hf, wvals_cons, wvals_cons]
        rw [svals_firstVal_some hf]
        rw [yieldsOf, yieldsList_append, pollTrace_yields]
        have hy : yieldsList (pollTail i (some a)) = [a] := rfl
        rw [hy, ← Multiset.coe_add]
        rw [Multiset.coe_add]
        rw [show ((([a] : List α) ++ yieldsList (scanGo (i+1) rest excl).1 : List α) : Multiset α)
              = (([a] : List α) : Multiset α) + yieldsOf (scanGo (i+1) rest excl).1 from
            (Multiset.coe_add _ _).symm]
        rw [← ih (i+1) excl]
        abel
      | none =>
        rw [scanGo_cons_eos s rest hm hf, wvals_cons, wvals_cons]
        rw [svals_firstVal_none hf]
        rw [yieldsOf, yieldsList_append, pollTrace_yields]
        have hy : yieldsList (pollTail i (none : Option α)) = [] := rfl
        rw [hy, List.nil_append]
        have hz : svals ([] : List (WResp α)) = 0 := rfl
        rw [hz, ← ih (i+1) (excl ++ [i])]
        rw [yieldsOf]
        abel

theorem activeCount_append_lt {α : Type} :
    ∀ (ws : List (List (WResp α))) (i : Nat) (excl extra : List Nat),
      (∀ j ∈ extra, j < i) →
      activeCount i ws (excl ++ extra) = activeCount i ws excl := by
  intro ws
  induction ws with
  | nil => intro i excl extra _; rfl
  | cons s rest ih =>
    intro i excl extra hx
    have hmem : (i ∈ excl ++ extra) = (i ∈ excl) := by
      simp only [List.mem_append, eq_iff_iff]
      constructor
      · rintro (h | h)
        · exact h
        · exact absurd (hx i h) (lt_irrefl i)
      · exact Or.inl
    simp only [activeCount, hmem]
    rw [ih (i+1) excl extra fun j hj => Nat.lt_succ_of_lt (hx j hj)]

theorem activeCount_pos {α : Type} :
    ∀ (ws : List (List (WResp α))) (i k : Nat) (excl : List Nat),
      k < ws.length → (i + k) ∉ excl → 1 ≤ activeCount i ws excl := by
  intro ws
  induction ws with
  | nil => intro i k excl hk _; simp at hk
  | cons s rest ih =>
    intro i k excl hk hm
    cases k with
    | zero =>
      simp only [Nat.add_zero] at hm
      simp [activeCount, hm]
    | succ k =>
      have : (i + 1) + k ∉ excl := by
        have : i + 1 + k = i + (k + 1) := by omega
        rw [this]; exact hm
      have h1 := ih (i+1) k excl (by simp at hk; omega) this
      simp only [activeCount]
      omega

theorem scanGo_progress {α : Type} :
    ∀ (ws : List (List (WResp α))) (i : Nat) (excl : List Nat),
      wlen (scanGo i ws excl).2.1 + excl.length + activeCount i ws excl ≤
        wlen ws + (scanGo i ws excl).2.2.length := by
  intro ws
  induction ws with
  | nil => intro i excl; simp [scanGo, wlen, activeCount]
  | cons s rest ih =>
    intro i excl
    by_cases hm : i ∈ excl
    · rw [scanGo_cons_skip s rest hm]
      have h := ih (i+1) excl
      simp only [wlen_cons, activeCount, hm, if_pos]
      omega
    · cases hf : firstVal s with
      | some a =>
        rw [scanGo_cons_val s rest hm hf]
        have h := ih (i+1) excl
        have hl := firstVal_some_length s a hf
        simp only [wlen_cons, activeCount, if_neg hm]
        omega
      | none =>
        rw [scanGo_cons_eos s rest hm hf]
        have h := ih (i+1) (excl ++ [i])
        have ha : activeCount (i+1) rest (excl ++ [i]) = activeCount (i+1) rest excl :=
          activeCount_append_lt rest (i+1) excl [i] (by simp)
        rw [ha] at h
        simp only [wlen_cons, activeCount, if_neg hm, List.length_append, List.length_cons,
          List.length_nil] at h ⊢
        omega

theorem scanGo_empty {α : Type} :
    ∀ (ws : List (List (WResp α))) (i : Nat) (excl : List Nat),
      (∀ k, k < ws.length → (i + k) ∈ excl → ws.getD k [] = []) →
      ∀ k, k < ws.length → (i + k) ∈ (scanGo i ws excl).2.2 →
        (scanGo i ws excl).2.1.getD k [] = [] := by
  intro ws
  induction ws with
  | nil => intro i excl _ k hk; simp at hk
  | cons s rest ih =>
    intro i excl hin k hk hmem
    by_cases hm : i ∈ excl
    · rw [scanGo_cons_skip s rest hm] at hmem ⊢
      cases k with
      | zero =>
        simpa using hin 0 (by simp) (by simpa using hm)
      | succ k =>
        simp only [List.getD_cons_succ]
        have hk' : k < rest.length := by simp at hk; omega
        have hmem' : (i + 1) + k ∈ (scanGo (i+1) rest excl).2.2 := by
          have : i + 1 + k = i + (k + 1) := by omega
          rw [this]; exact hmem
        refine ih (i+1) excl ?_ k hk' hmem'
        intro k' hk' hmm
        have : (s :: rest).getD (k' + 1) [] = [] := by
          refine hin (k' + 1) (by simp; omega) ?_
          have : i + (k' + 1) = i + 1 + k' := by omega
          rw [this]; exact hmm
        simpa using this
    · cases hf : firstVal s with
      | some a =>
        rw [scanGo_cons_val s rest hm hf] at hmem ⊢
        cases k with
        | zero =>
          exfalso
          obtain ⟨new, h1, _, h3⟩ := scanGo_excl_spec rest (i+1) excl
          rw [h1] at hmem
          simp only [Nat.add_zero] at hmem
          rcases List.mem_append.mp hmem with h | h
          · exact hm h
          · have := (h3 i h).1; omega
        | succ k =>
          simp only [List.getD_cons_succ]
          have hk' : k < rest.length := by simp at hk; omega
          have hmem' : (i + 1) + k ∈ (scanGo (i+1) rest excl).2.2 := by
            have : i + 1 + k = i + (k + 1) := by omega
            rw [this]; exact hmem
          refine ih (i+1) excl ?_ k hk' hmem'
          intro k' hk' hmm
          have : (s :: rest).getD (k' + 1) [] = [] := by
            refine hin (k' + 1) (by simp; omega) ?_
            have : i + (k' + 1) = i + 1 + k' := by omega
            rw [this]; exact hmm
          simpa using this
      | none =>
        rw [scanGo_cons_eos s rest hm hf] at hmem ⊢
        cases k with
        | zero => simp
        | succ k =>
          simp only [List.getD_cons_succ]
          have hk' : k < rest.length := by simp at hk; omega
          have hmem' : (i + 1) + k ∈ (scanGo (i+1) rest (excl ++ [i])).2.2 := by
            have : i + 1 + k = i + (k + 1) := by omega
            rw [this]; exact hmem
          refine ih (i+1) (excl ++ [i]) ?_ k hk' hmem'
          intro k' hk' hmm
          rcases List.mem_append.mp hmm with h | h
          · have : (s :: rest).getD (k' + 1) [] = [] := by
              refine hin (k' + 1) (by simp; omega) ?_
              have : i + (k' + 1) = i + 1 + k' := by omega
              rw [this]; exact h
            simpa using this
          · exfalso; simp at h; omega

theorem scanGo_inv {α : Type} {ws : List (List (WResp α))} {excl : List Nat}
    (h : MergeInv ws excl) : MergeInv (scanGo 0 ws excl).2.1 (scanGo 0 ws excl).2.2 := by
  obtain ⟨hnd, hb, hempty⟩ := h
  obtain ⟨new, h1, h2, h3⟩ := scanGo_excl_spec ws 0 excl
  have hlen : (scanGo 0 ws excl).2.1.length = ws.length := scanGo_length ws 0 excl
  refine ⟨?_, ?_, ?_⟩
  · rw [h1]
    refine List.Nodup.append hnd (h2.imp fun {a b} hab => Nat.ne_of_lt hab) ?_
    intro a ha hanew
    exact (h3 a hanew).2.2 ha
  · intro j hj
    rw [hlen]
    rw [h1] at hj
    rcases List.mem_append.mp hj with h | h
    · exact hb j h
    · have := (h3 j h).2.1
      omega
  · intro j hj
    by_cases hjl : j < ws.length
    · have := scanGo_empty ws 0 excl
        (fun k _ hk => hempty k (by simpa using hk)) j (by omega) (by simpa using hj)
      simpa using this
    · rw [List.getD_eq_default]
      omega

theorem mergeLoop_total {α : Type} :
    ∀ (fuel : Nat) (ws : List (List (WResp α))) (excl : List Nat),
      MergeInv ws excl → wlen ws + (ws.length - excl.length) < fuel →
      ∃ tr ws' excl',
        mergeLoop fuel ws excl = some (tr, ws', excl') ∧
        yieldsOf tr + wvals ws' = wvals ws ∧
        ws'.length = ws.length ∧ excl'.length = ws.length ∧ MergeInv ws' excl' := by
  intro fuel
  induction fuel with
  | zero => intro ws excl _ hm; omega
  | succ fuel ih =>
    intro ws excl hinv hm
    obtain ⟨hnd, hb, hempty⟩ := hinv
    by_cases hlt : excl.length < ws.length
    · -- another scan cycle runs
      have hinv' : MergeInv (scanGo 0 ws excl).2.1 (scanGo 0 ws excl).2.2 :=
        scanGo_inv ⟨hnd, hb, hempty⟩
      -- strict measure decrease
      obtain ⟨k, hk, hknot⟩ := exists_not_mem_excl hnd hb hlt
      have hac : 1 ≤ activeCount 0 ws excl :=
        activeCount_pos ws 0 k excl hk (by simpa using hknot)
      have hprog := scanGo_progress ws 0 excl
      have hexle : (scanGo 0 ws excl).2.2.length ≤ ws.length := by
        have := excl_length_le hinv'.1 (fun j hj => (hinv'.2.1 j hj))
        rwa [scanGo_length] at this
      have hm' : wlen (scanGo 0 ws excl).2.1 +
          ((scanGo 0 ws excl).2.1.length - (scanGo 0 ws excl).2.2.length) < fuel := by
        rw [scanGo_length]
        omega
      obtain ⟨tr2, ws'', excl'', heq, hcons, hl1, hl2, hinv''⟩ :=
        ih (scanGo 0 ws excl).2.1 (scanGo 0 ws excl).2.2 hinv' hm'
      refine ⟨(scanGo 0 ws excl).1 ++ tr2, ws'', excl'', ?_, ?_, ?_, ?_, hinv''⟩
      · simp only [mergeLoop, if_pos hlt, heq]
      · rw [yieldsOf, yieldsList_append, ← Multiset.coe_add]
        have : (↑(yieldsList (scanGo 0 ws excl).1) : Multiset α) +
            (↑(yieldsList tr2) : Multiset α) + wvals ws'' =
            (↑(yieldsList (scanGo 0 ws excl).1) : Multiset α) +
              (yieldsOf tr2 + wvals ws'') := by
          rw [yieldsOf]; abel
        rw [this, hcons]
        exact scanGo_vals ws 0 excl
      · rw [hl1, scanGo_length]
      · rw [hl2, scanGo_length]
    · -- loop exits: every worker is excluded
      have hle : excl.length ≤ ws.length := excl_length_le hnd hb
      have heq : excl.length = ws.length := by omega
      refine ⟨[], ws, excl, ?_, ?_, rfl, heq, ⟨hnd, hb, hempty⟩⟩
      · simp only [mergeLoop, if_neg hlt]
      · simp [yieldsOf, yieldsList]

/-! ## Lemmas: no worker is polled after its exclusion -/

theorem npae_nil {α : Type} : noPollAfterExclude ([] : List (MEvent α)) := by
  intro t1 i t2 h
  exact absurd h (by simp)

theorem npae_of_no_exclude {α : Type} {tr : List (MEvent α)}
    (h : ∀ j, MEvent.exclude j ∉ tr) : noPollAfterExclude tr := by
  intro t1 i t2 heq
  exact absurd (heq ▸ List.mem_append_right t1 (List.mem_cons_self _ _)) (h i)

theorem npae_append {α : Type} {tr1 tr2 : List (MEvent α)}
    (h1 : noPollAfterExclude tr1) (h2 : noPollAfterExclude tr2)
    (hc : ∀ j, MEvent.exclude j ∈ tr1 → MEvent.poll j ∉ tr2) :
    noPollAfterExclude (tr1 ++ tr2) := by
  intro t1 i t2 heq
  rcases List.append_eq_append_iff.mp heq with ⟨a', ht1, ht2⟩ | ⟨c', ht1, ht2⟩
  · exact h2 a' i t2 ht2
  · cases c' with
    | nil =>
      simp only [List.nil_append] at ht2
      exact h2 [] i t2 (by simpa using ht2.symm)
    | cons e c'' =>
      have he : e = MEvent.exclude i ∧ t2 = c'' ++ tr2 := by
        have := ht2
        simp only [List.cons_append, List.cons.injEq] at this
        exact ⟨this.1.symm, this.2⟩
      rcases he with ⟨rfl, rfl⟩
      intro hmem
      rcases List.mem_append.mp hmem with h | h
      · exact h1 t1 i c'' (by rw [ht1]) h
      · have hexc : MEvent.exclude i ∈ tr1 := by
          rw [ht1]
          exact List.mem_append_right t1 (List.mem_cons_self _ _)
        exact hc i hexc h

theorem scanGo_poll_mem {α : Type} :
    ∀ (ws : List (List (WResp α))) (i : Nat) (excl : List Nat) (j : Nat),
      MEvent.poll j ∈ (scanGo i ws excl).1 → i ≤ j ∧ j ∉ excl := by
  intro ws
  induction ws with
  | nil => intro i excl j h; simp [scanGo] at h
  | cons s rest ih =>
    intro i excl j h
    by_cases hm : i ∈ excl
    · rw [scanGo_cons_skip s rest hm] at h
      have := ih (i+1) excl j h
      exact ⟨by omega, this.2⟩
    · cases hf : firstVal s with
      | some a =>
        rw [scanGo_cons_val s rest hm hf] at h
        rcases List.mem_append.mp h with h | h
        · rcases pollTrace_mem _ _ _ h with h | h | h
          · have : j = i := by injection h
            exact ⟨by omega, this ▸ hm⟩
          · exact absurd h (by simp)
          · rcases List.mem_cons.mp h with h | h
            · have : j = i := by injection h
              exact ⟨by omega, this ▸ hm⟩
            · simp at h
        · have := ih (i+1) excl j h
          exact ⟨by omega, this.2⟩
      | none =>
        rw [scanGo_cons_eos s rest hm hf] at h
        rcases List.mem_append.mp h with h | h
        · rcases pollTrace_mem _ _ _ h with h | h | h
          · have : j = i := by injection h
            exact ⟨by omega, this ▸ hm⟩
          · exact absurd h (by simp)
          · rcases List.mem_cons.mp h with h | h
            · have : j = i := by injection h
              exact ⟨by omega, this ▸ hm⟩
            · simp at h
        · have := ih (i+1) (excl ++ [i]) j h
          refine ⟨by omega, fun hin => this.2 ?_⟩
          exact List.mem_append_left _ hin

theorem scanGo_exclude_mem {α : Type} :
    ∀ (ws : List (List (WResp α))) (i : Nat) (excl : List Nat) (j : Nat),
      MEvent.exclude j ∈ (scanGo i ws excl).1 → j ∈ (scanGo i ws excl).2.2 := by
  intro ws
  induction ws with
  | nil => intro i excl j h; simp [scanGo] at h
  | cons s rest ih =>
    intro i excl j h
    by_cases hm : i ∈ excl
    · rw [scanGo_cons_skip s rest hm] at h ⊢
      exact ih (i+1) excl j h
    · cases hf : firstVal s with
      | some a =>
        rw [scanGo_cons_val s rest hm hf] at h ⊢
        rcases List.mem_append.mp h with h | h
        · exfalso
          rcases pollTrace_mem _ _ _ h with h | h | h
          · simp at h
          · simp at h
          · rcases List.mem_cons.mp h with h | h
            · simp at h
            · rcases List.mem_cons.mp h with h | h
              · simp at h
              · simp at h
        · exact ih (i+1) excl j h
      | none =>
        rw [scanGo_cons_eos s rest hm hf] at h ⊢
        rcases List.mem_append.mp h with h | h
        · rcases pollTrace_mem _ _ _ h with h | h | h
          · simp at h
          · simp at h
          · have : j = i := by
              rcases List.mem_cons.mp h with h | h
              · simp at h
              · rcases List.mem_cons.mp h with h | h
                · injection h
                · simp at h
            subst this
            exact scanGo_excl_mono rest (j+1) (excl ++ [j]) j (by simp)
        · exact ih (i+1) (excl ++ [i]) j h

theorem scanGo_npae {α : Type} :
    ∀ (ws : List (List (WResp α))) (i : Nat) (excl : List Nat),
      noPollAfterExclude (scanGo i ws excl).1 := by
  intro ws
  induction ws with
  | nil => intro i excl; simpa [scanGo] using npae_nil
  | cons s rest ih =>
    intro i excl
    by_cases hm : i ∈ excl
    · rw [scanGo_cons_skip s rest hm]
      exact ih (i+1) excl
    · cases hf : firstVal s with
      | some a =>
        rw [scanGo_cons_val s rest hm hf]
        have hno : ∀ j, MEvent.exclude j ∉
            pollTrace i (leadingBusy s) (pollTail i (some a)) := by
          intro j hmem
          rcases pollTrace_mem _ _ _ hmem with h | h | h
          · simp at h
          · simp at h
          · simp [pollTail] at h
        refine npae_append (npae_of_no_exclude hno) (ih (i+1) excl) ?_
        intro j hj
        exact absurd hj (hno j)
      | none =>
        rw [scanGo_cons_eos s rest hm hf]
        have h1 : noPollAfterExclude (pollTrace i (leadingBusy s)
            (pollTail i (none : Option α))) := by
          intro t1 j t2 heq
          have : t2 = [] := pollTrace_exclude_last (leadingBusy s) t1 j t2 heq
          simp [this]
        refine npae_append h1 (ih (i+1) (excl ++ [i])) ?_
        intro j hj hpoll
        have hji : j = i := by
          rcases pollTrace_mem _ _ _ hj with h | h | h
          · simp at h
          · simp at h
          · simp only [pollTail, List.mem_cons] at h
            rcases h with h | h
            · simp at h
            · rcases h with h | h
              · injection h
              · simp at h
        subst hji
        have := scanGo_poll_mem rest (j+1) (excl ++ [j]) j hpoll
        omega

theorem mergeLoop_succ_inv {α : Type} {fuel : Nat} {ws : List (List (WResp α))}
    {excl : List Nat} {tr : List (MEvent α)} {ws' : List (List (WResp α))} {excl' : List Nat}
    (h : mergeLoop (fuel+1) ws excl = some (tr, ws', excl')) :
    (¬ excl.length < ws.length ∧ tr = [] ∧ ws' = ws ∧ excl' = excl) ∨
    (excl.length < ws.length ∧ ∃ tr2,
       mergeLoop fuel (scanGo 0 ws excl).2.1 (scanGo 0 ws excl).2.2 = some (tr2, ws', excl') ∧
       tr = (scanGo 0 ws excl).1 ++ tr2) := by
  by_cases hlt : excl.length < ws.length
  · right
    refine ⟨hlt, ?_⟩
    simp only [mergeLoop, if_pos hlt] at h
    cases hm2 : mergeLoop fuel (scanGo 0 ws excl).2.1 (scanGo 0 ws excl).2.2 with
    | none => rw [hm2] at h; exact absurd h (by simp)
    | some r2 =>
      rw [hm2] at h
      simp only [Option.some.injEq, Prod.mk.injEq] at h
      obtain ⟨h1, h2, h3⟩ := h
      exact ⟨r2.1, by rw [← h2, ← h3], h1.symm⟩
  · left
    simp only [mergeLoop, if_neg hlt, Option.some.injEq, Prod.mk.injEq] at h
    exact ⟨hlt, h.1.symm, h.2.1.symm, h.2.2.symm⟩

theorem mergeLoop_poll {α : Type} :
    ∀ (fuel : Nat) (ws : List (List (WResp α))) (excl : List Nat)
      (tr : List (MEvent α)) (ws' : List (List (WResp α))) (excl' : List Nat),
      mergeLoop fuel ws excl = some (tr, ws', excl') →
      ∀ j, MEvent.poll j ∈ tr → j ∉ excl := by
  intro fuel
  induction fuel with
  | zero => intro ws excl tr ws' excl' h; exact absurd h (by simp [mergeLoop])
  | succ fuel ih =>
    intro ws excl tr ws' excl' h j hj
    rcases mergeLoop_succ_inv h with ⟨_, rfl, _, _⟩ | ⟨hlt, tr2, h2, rfl⟩
    · simp at hj
    · rcases List.mem_append.mp hj with hm | hm
      · exact (scanGo_poll_mem ws 0 excl j hm).2
      · intro hin
        exact ih _ _ _ _ _ h2 j hm (scanGo_excl_mono ws 0 excl j hin)

theorem mergeLoop_npae {α : Type} :
    ∀ (fuel : Nat) (ws : List (List (WResp α))) (excl : List Nat)
      (tr : List (MEvent α)) (ws' : List (List (WResp α))) (excl' : List Nat),
      mergeLoop fuel ws excl = some (tr, ws', excl') → noPollAfterExclude tr := by
  intro fuel
  induction fuel with
  | zero => intro ws excl tr ws' excl' h; exact absurd h (by simp [mergeLoop])
  | succ fuel ih =>
    intro ws excl tr ws' excl' h
    rcases mergeLoop_succ_inv h with ⟨_, rfl, _, _⟩ | ⟨hlt, tr2, h2, rfl⟩
    · exact npae_nil
    · refine npae_append (scanGo_npae ws 0 excl) (ih _ _ _ _ _ h2) ?_
      intro j hj
      exact fun hp => mergeLoop_poll _ _ _ _ _ _ h2 j hp (scanGo_exclude_mem ws 0 excl j hj)

theorem wvals_zero {α : Type} :
    ∀ ws : List (List (WResp α)),
      (∀ k, k < ws.length → ws.getD k [] = []) → wvals ws = 0 := by
  intro ws
  induction ws with
  | nil => intro _; rfl
  | cons s rest ih =>
    intro h
    have hs : s = [] := by simpa using h 0 (by simp)
    have hr : wvals rest = 0 := by
      refine ih fun k hk => ?_
      simpa using h (k+1) (by simp; omega)
    rw [wvals_cons, hs, hr]
    rfl

theorem scanYields_append_lt {α : Type} :
    ∀ (ws : List (List (WResp α))) (i : Nat) (excl extra : List Nat),
      (∀ j ∈ extra, j < i) →
      scanYields i ws (excl ++ extra) = scanYields i ws excl := by
  intro ws
  induction ws with
  | nil => intro i excl extra _; rfl
  | cons s rest ih =>
    intro i excl extra hx
    have hmem : (i ∈ excl ++ extra) = (i ∈ excl) := by
      simp only [List.mem_append, eq_iff_iff]
      constructor
      · rintro (h | h)
        · exact h
        · exact absurd (hx i h) (lt_irrefl i)
      · exact Or.inl
    simp only [scanYields, hmem]
    rw [ih (i+1) excl extra fun j hj => Nat.lt_succ_of_lt (hx j hj)]

theorem scanGo_yields {α : Type} :
    ∀ (ws : List (List (WResp α))) (i : Nat) (excl : List Nat),
      yieldsList (scanGo i ws excl).1 = scanYields i ws excl := by
  intro ws
  induction ws with
  | nil => intro i excl; rfl
  | cons s rest ih =>
    intro i excl
    by_cases hm : i ∈ excl
    · rw [scanGo_cons_skip s rest hm]
      simp only [scanYields, if_pos hm, List.nil_append]
      exact ih (i+1) excl
    · cases hf : firstVal s with
      | some a =>
        rw [scanGo_cons_val s rest hm hf]
        rw [yieldsList_append, pollTrace_yields]
        simp only [scanYields, if_neg hm, hf, Option.toList_some]
        rw [ih (i+1) excl]
        rfl
      | none =>
        rw [scanGo_cons_eos s rest hm hf]
        rw [yieldsList_append, pollTrace_yields]
        simp only [scanYields, if_neg hm, hf, Option.toList_none]
        rw [ih (i+1) (excl ++ [i]), scanYields_append_lt rest (i+1) excl [i] (by simp)]
        rfl

theorem sleepCount_pollTrace {α : Type} (i : Nat) :
    ∀ (n : Nat) (tail : List (MEvent α)),
      sleepCount (pollTrace i n tail) = n + sleepCount tail := by
  intro n
  induction n with
  | zero => intro tail; simp [pollTrace]
  | succ n ih =>
    intro tail
    simp only [pollTrace, sleepCount, List.countP_cons] at ih ⊢
    rw [ih tail]
    simp
    omega

theorem sleepCount_pollTail {α : Type} (i : Nat) (o : Option α) :
    sleepCount (pollTail i o) = 0 := by
  cases o <;> rfl

/-! ## Claims -/

/-- C1: for every number of workers `K ≥ 1` and every assignment of finite
response scripts to the `K` workers, a run of
`_IterateQueueDataPipes.__iter__` terminates — the outer loop exits with
as many exclusions as workers — and the values it yields are exactly the
union (multiset sum) of all workers' items, each item exactly once. -/
theorem C1_merge_yields_union_and_terminates {α : Type} (K : Nat) (hK : 1 ≤ K)
    (ws : List (List (WResp α))) (hlen : ws.length = K) :
    ∃ tr ws' excl', iterateQueueDataPipes ws = some (tr, ws', excl') ∧
      yieldsOf tr = wvals ws ∧ excl'.length = K := by
  have hinv : MergeInv ws [] := ⟨List.nodup_nil, by simp, by simp⟩
  have hm : wlen ws + (ws.length - ([] : List Nat).length) < wlen ws + ws.length + 1 := by
    simp
  obtain ⟨tr, ws', excl', heq, hcons, hl1, hl2, hinv'⟩ :=
    mergeLoop_total (wlen ws + ws.length + 1) ws [] hinv hm
  refine ⟨tr, ws', excl', heq, ?_, by omega⟩
  have hall : ∀ k, k < ws'.length → k ∈ excl' :=
    all_mem_of_length_eq hinv'.1 hinv'.2.1 (by omega)
  have hzero : wvals ws' = 0 :=
    wvals_zero ws' fun k hk => hinv'.2.2 k (hall k hk)
  rw [hzero] at hcons
  simpa using hcons

/-- Witness for C1 at two workers with scripts `[val 1]` and
`[busy, val 2]`. -/
theorem C1_witness :
    1 ≤ 2 ∧
    (∃ tr ws' excl',
      iterateQueueDataPipes [[WResp.val 1], [WResp.busy, WResp.val 2]] =
        some (tr, ws', excl') ∧
      yieldsOf tr = wvals [[WResp.val 1], [WResp.busy, WResp.val 2]] ∧
      excl'.length = 2) :=
  ⟨by decide,
   C1_merge_yields_union_and_terminates 2 (by decide)
     [[WResp.val 1], [WResp.busy, WResp.val 2]] rfl⟩

/-- C2 counterexample: worker 0 scripted `busy` then `10`, worker 1
scripted `20`.  The code's run sleeps once although worker 1 (a
still-active worker) never reported busy, and yields `10` before `20`
because the busy worker is re-polled immediately instead of being left for
the next scan cycle; the scan discipline the claim describes (embedded as
`specMergeRun` from the specification's words) yields `20` before `10` and
never sleeps. -/
theorem C2_counterexample :
    (iterateQueueDataPipes [[WResp.busy, WResp.val 10], [WResp.val 20]]).map
        (fun r => (yieldsList r.1, sleepCount r.1)) = some ([10, 20], 1) ∧
    (specMergeRun [[WResp.busy, WResp.val 10], [WResp.val 20]]).map
        (fun r => (yieldsList r.1, sleepCount r.1)) = some ([20, 10], 0) := by
  exact ⟨rfl, rfl⟩

/-- C2 (amended): on `NotAvailable` the merge iterator sleeps the fixed
1 ms delay and immediately re-polls the *same* worker — one sleep per busy
response, regardless of what the other workers reported — until that
worker produces a value or raises `StopIteration`; on a value it yields it
and only then moves to the next worker, so during one full scan cycle each
still-active worker contributes exactly its first available value (at most
one item per worker per cycle). -/
theorem C2_amended_busy_repolled_immediately {α : Type} :
    (∀ (i : Nat) (s : List (WResp α)),
      pollLoop i s =
        (pollTrace i (leadingBusy s) (pollTail i (firstVal s)),
         firstVal s, afterFirstVal s)) ∧
    (∀ (i : Nat) (s : List (WResp α)), sleepCount (pollLoop i s).1 = leadingBusy s) ∧
    (∀ (i : Nat) (ws : List (List (WResp α))) (excl : List Nat),
      yieldsList (scanGo i ws excl).1 = scanYields i ws excl) :=
  ⟨fun i s => pollLoop_char i s,
   fun i s => by
     rw [pollLoop_fst, sleepCount_pollTrace, sleepCount_pollTail]; omega,
   fun i ws excl => scanGo_yields ws i excl⟩

/-- C3: exhaustion monotonicity.  In any complete run of the merge
iterator: (a) once a worker is added to the exclusion list it is never
polled (`nonblocking_next` never called) again for the remainder of the
pass; (b) when the run ends, every worker is in the exclusion list; and
(c) conversely, whenever every worker is already excluded, the loop exits
at once producing no further events (the merged stream is exhausted iff
every worker is excluded). -/
theorem C3_exhaustion_monotone {α : Type} (ws : List (List (WResp α)))
    (tr : List (MEvent α)) (ws' : List (List (WResp α))) (excl' : List Nat)
    (h : iterateQueueDataPipes ws = some (tr, ws', excl')) :
    (∀ t1 i t2, tr = t1 ++ MEvent.exclude i :: t2 → MEvent.poll i ∉ t2) ∧
    (∀ i, i < ws.length → i ∈ excl') ∧
    (∀ (fuel : Nat) (ws0 : List (List (WResp α))) (excl0 : List Nat),
      (∀ i, i < ws0.length → i ∈ excl0) →
      mergeLoop (fuel+1) ws0 excl0 = some ([], ws0, excl0)) := by
  rw [iterateQueueDataPipes] at h
  refine ⟨mergeLoop_npae _ _ _ _ _ _ h, ?_, ?_⟩
  · have hinv : MergeInv ws ([] : List Nat) := ⟨List.nodup_nil, by simp, by simp⟩
    have hm : wlen ws + (ws.length - ([] : List Nat).length) < wlen ws + ws.length + 1 := by
      simp
    obtain ⟨tr0, ws0', excl0', heq, _, hl1, hl2, hinv'⟩ :=
      mergeLoop_total (wlen ws + ws.length + 1) ws [] hinv hm
    rw [heq] at h
    simp only [Option.some.injEq, Prod.mk.injEq] at h
    obtain ⟨_, _, hexcl⟩ := h
    subst hexcl
    intro i hi
    exact all_mem_of_length_eq hinv'.1 hinv'.2.1 (by omega) i (by omega)
  · intro fuel ws0 excl0 hall
    have hge : ws0.length ≤ excl0.length := by
      have hsub : (List.range ws0.length).toFinset ⊆ excl0.toFinset := by
        intro j hj
        rw [List.mem_toFinset] at hj ⊢
        exact hall j (List.mem_range.mp hj)
      have hcard := Finset.card_le_card hsub
      rw [List.toFinset_card_of_nodup (List.nodup_range _)] at hcard
      calc ws0.length = (List.range ws0.length).length := (List.length_range _).symm
        _ = (List.range ws0.length).toFinset.card := by
              rw [List.toFinset_card_of_nodup (List.nodup_range _)]
        _ ≤ excl0.toFinset.card := Finset.card_le_card hsub
        _ ≤ excl0.length := List.toFinset_card_le excl0
    simp only [mergeLoop, if_neg (by omega : ¬ excl0.length < ws0.length)]

/-- Witness for C3 on the run with scripts `[val 5]` and `[]`. -/
theorem C3_witness :
    iterateQueueDataPipes [[WResp.val 5], ([] : List (WResp Nat))] =
      some ([MEvent.poll 0, MEvent.yieldv 5, MEvent.poll 1, MEvent.exclude 1,
             MEvent.poll 0, MEvent.exclude 0], [[], []], [1, 0]) ∧
    ((∀ t1 i t2,
        [MEvent.poll 0, MEvent.yieldv 5, MEvent.poll 1, MEvent.exclude 1,
         MEvent.poll 0, MEvent.exclude 0] = t1 ++ MEvent.exclude i :: t2 →
        MEvent.poll i ∉ t2) ∧
     (∀ i, i < ([[WResp.val 5], ([] : List (WResp Nat))] :
        List (List (WResp Nat))).length → i ∈ [1, 0]) ∧
     (∀ (fuel : Nat) (ws0 : List (List (WResp Nat))) (excl0 : List Nat),
        (∀ i, i < ws0.length → i ∈ excl0) →
        mergeLoop (fuel+1) ws0 excl0 = some ([], ws0, excl0))) :=
  ⟨rfl, C3_exhaustion_monotone [[WResp.val 5], ([] : List (WResp Nat))] _ _ _ rfl⟩

/-- C4 counterexample: a pool with one worker that never answers the
terminate request.  `res_queue.get()` in `clean_me` carries no timeout, so
`finalize` blocks forever on response queue 1 (third component `some 1`)
after sending the terminate message; no timeout expires and no error is
ever surfaced, and the state is never updated — contradicting the claim
that the wait is bounded by an explicit timeout whose expiry surfaces a
fatal error. -/
theorem C4_counterexample :
    finalizeService (fun _ => false)
        ⟨1, [⟨⟨DataPipe.source none⟩, 0, 1⟩], [⟨0, 1⟩]⟩ =
      (⟨1, [⟨⟨DataPipe.source none⟩, 0, 1⟩], [⟨0, 1⟩]⟩, [0], some 1) := rfl

/-- C4 (amended): the wait for each worker's `TerminateAck` in
`PrototypeMultiProcessingReadingService.finalize` is an **unbounded**
blocking queue read with no timeout: when every worker acknowledges,
finalize completes, sending exactly one terminate message per worker and
emptying the process list; when some worker never acknowledges, finalize
blocks forever at the first such worker, surfacing no error. -/
theorem C4_amended_unbounded_wait (ack : Nat → Bool)
    (s : PrototypeMultiProcessingReadingService) :
    ((∀ e ∈ s.processes, ack e.res_queue = true) →
      finalizeService ack s =
        ({ s with processes := [] }, s.processes.map ProcEntry.req_queue, none)) ∧
    (∀ ps1 e ps2, s.processes = ps1 ++ e :: ps2 →
      (∀ p ∈ ps1, ack p.res_queue = true) → ack e.res_queue = false →
      finalizeService ack s =
        (s, ps1.map ProcEntry.req_queue ++ [e.req_queue], some e.res_queue)) := by
  constructor
  · intro h
    have hl := finalizeLoop_all_ack ack s.processes h
    simp [finalizeService, hl]
  · intro ps1 e ps2 hsplit h1 h2
    have hl := finalizeLoop_blocked ack ps1 e ps2 h1 h2
    simp [finalizeService, hsplit, hl]

/-- Witness for C4 (amended): a worker that acks completes finalize; a pool
whose second worker never acks blocks forever there. -/
theorem C4_amended_witness :
    finalizeService (fun _ => true) ⟨1, [⟨⟨DataPipe.source none⟩, 0, 1⟩], []⟩ =
      ({ (⟨1, [⟨⟨DataPipe.source none⟩, 0, 1⟩], []⟩ :
           PrototypeMultiProcessingReadingService) with processes := [] },
       ([⟨⟨DataPipe.source none⟩, 0, 1⟩] : List ProcEntry).map ProcEntry.req_queue, none) ∧
    finalizeService (fun q => q == 1)
        ⟨2, [⟨⟨DataPipe.source none⟩, 0, 1⟩, ⟨⟨DataPipe.source none⟩, 2, 3⟩], []⟩ =
      (⟨2, [⟨⟨DataPipe.source none⟩, 0, 1⟩, ⟨⟨DataPipe.source none⟩, 2, 3⟩], []⟩,
       ([⟨⟨DataPipe.source none⟩, 0, 1⟩] : List ProcEntry).map ProcEntry.req_queue ++ [2],
       some 3) :=
  ⟨(C4_amended_unbounded_wait (fun _ => true) _).1 (by decide),
   (C4_amended_unbounded_wait (fun q => q == 1) _).2
     [⟨⟨DataPipe.source none⟩, 0, 1⟩] ⟨⟨DataPipe.source none⟩, 2, 3⟩ [] rfl
     (by decide) (by decide)⟩

/-- C5: finalize is idempotent — after a completed finalize, a second
finalize (whatever the workers would answer) sends no terminate messages,
does not block or error, and leaves the state unchanged. -/
theorem C5_finalize_idempotent (ack ack' : Nat → Bool)
    (s s' : PrototypeMultiProcessingReadingService) (sent : List Nat)
    (h : finalizeService ack s = (s', sent, none)) :
    finalizeService ack' s' = (s', [], none) := by
  have hs : s'.processes = [] := by
    unfold finalizeService at h
    cases hm : (finalizeLoop ack s.processes).2 with
    | some r => rw [hm] at h; simp at h
    | none =>
      rw [hm] at h
      simp only [Prod.mk.injEq] at h
      rw [← h.1]
  have heta : { s' with processes := ([] : List ProcEntry) } = s' := by
    cases s' with
    | mk nw ps dps =>
      simp only at hs
      simp [hs]
  unfold finalizeService
  rw [hs]
  simp only [finalizeLoop]
  rw [heta]

/-- Witness for C5: finalizing `⟨2, [worker], [wrapper]⟩` and then
finalizing the result again. -/
theorem C5_witness :
    finalizeService (fun _ => true) ⟨2, [⟨⟨DataPipe.source none⟩, 0, 1⟩], [⟨0, 1⟩]⟩ =
      (⟨2, [], [⟨0, 1⟩]⟩, [0], none) ∧
    finalizeService (fun _ => false) ⟨2, [], [⟨0, 1⟩]⟩ = (⟨2, [], [⟨0, 1⟩]⟩, [], none) :=
  ⟨rfl, C5_finalize_idempotent (fun _ => true) (fun _ => false)
     ⟨2, [⟨⟨DataPipe.source none⟩, 0, 1⟩], [⟨0, 1⟩]⟩ ⟨2, [], [⟨0, 1⟩]⟩ [0] (by decide)⟩

theorem isFullSync_apply_sharding (datapipe : DataPipe) (n i : Nat) :
    isFullSync (apply_sharding datapipe n i) = isFullSync datapipe := by
  cases datapipe <;> rfl

/-- C6: `DistributedReadingService.initialize` appends the end-of-iteration
full-sync barrier exactly once at the tail of the pipeline: if the
pipeline (sharded in place) already ends in a `FullSync`, it is returned
with no new stage appended; otherwise exactly one `fullsync` stage
carrying the configured timeout is appended — and either way the returned
pipeline ends in a `FullSync`. -/
theorem C6_fullsync_appended_once (rt : DistRuntime) (s : DistributedReadingService)
    (datapipe : DataPipe) (s' : DistributedReadingService) (r : DataPipe)
    (h : distInitService rt s datapipe = Except.ok (s', r)) :
    (isFullSync datapipe = true →
      r = apply_sharding datapipe rt.world_size rt.rank) ∧
    (isFullSync datapipe = false →
      r = DataPipe.fullsync s.timeout (apply_sharding datapipe rt.world_size rt.rank)) ∧
    isFullSync r = true := by
  unfold distInitService at h
  by_cases hc : (rt.available && rt.inited) = false
  · rw [if_pos hc] at h
    exact absurd h (by simp)
  · rw [if_neg hc] at h
    simp only [Except.ok.injEq, Prod.mk.injEq] at h
    have hr : r = (if isFullSync (apply_sharding datapipe rt.world_size rt.rank) then
        apply_sharding datapipe rt.world_size rt.rank
      else DataPipe.fullsync s.timeout (apply_sharding datapipe rt.world_size rt.rank)) :=
      h.2.symm
    rw [isFullSync_apply_sharding] at hr
    cases hfs : isFullSync datapipe with
    | true =>
      rw [hfs] at hr
      simp only [if_true] at hr
      refine ⟨fun _ => hr, ?_, ?_⟩
      · intro hcontra
        simp [hfs] at hcontra
      · rw [hr, isFullSync_apply_sharding, hfs]
    | false =>
      rw [hfs] at hr
      simp only [Bool.false_eq_true, if_false] at hr
      refine ⟨?_, fun _ => hr, ?_⟩
      · intro hcontra
        simp [hfs] at hcontra
      · rw [hr]
        rfl

/-- Witness for C6: a runtime with world size 2 and rank 1, timeout 7, and
a bare source pipeline (no full-sync at the tail). -/
theorem C6_witness :
    distInitService ⟨true, true, 2, 1⟩ ⟨1, 0, 7, none⟩ (DataPipe.source none) =
      Except.ok (⟨2, 1, 7, some 7⟩,
        DataPipe.fullsync 7 (DataPipe.source (some (2, 1)))) ∧
    ((isFullSync (DataPipe.source none) = true →
        DataPipe.fullsync 7 (DataPipe.source (some (2, 1))) =
          apply_sharding (DataPipe.source none) 2 1) ∧
     (isFullSync (DataPipe.source none) = false →
        DataPipe.fullsync 7 (DataPipe.source (some (2, 1))) =
          DataPipe.fullsync 7 (apply_sharding (DataPipe.source none) 2 1)) ∧
     isFullSync (DataPipe.fullsync 7 (DataPipe.source (some (2, 1)))) = true) :=
  ⟨rfl, C6_fullsync_appended_once ⟨true, true, 2, 1⟩ ⟨1, 0, 7, none⟩
     (DataPipe.source none) ⟨2, 1, 7, some 7⟩
     (DataPipe.fullsync 7 (DataPipe.source (some (2, 1)))) rfl⟩

/-- C7: distributed initialization fails fatally on missing preconditions —
the constructor returns an error exactly when the distributed runtime is
unavailable, and `initialize` returns an error exactly when the runtime is
unavailable or not yet started by the caller. -/
theorem C7_precondition_errors (rt : DistRuntime) (timeout : Nat)
    (s : DistributedReadingService) (datapipe : DataPipe) :
    ((∃ e, mkDistributedReadingService rt timeout = Except.error e) ↔
      rt.available = false) ∧
    ((∃ e, distInitService rt s datapipe = Except.error e) ↔
      (rt.available && rt.inited) = false) := by
  constructor
  · cases ha : rt.available <;>
      simp [mkDistributedReadingService, ha]
  · cases hai : rt.available && rt.inited <;>
      simp [distInitService, hai]

/-- C8: for `num_workers = K > 0`, initialize spawns exactly `K` worker
processes; worker `i` (for `i < K`) runs the pipeline with sharding
`(shard count K, shard index i)` applied inside the process before its
first item, and is wired to its own freshly created request/response queue
pair `(fresh + 2 i, fresh + 2 i + 1)` — recorded identically in its queue
wrapper — with no queue shared between two distinct workers. -/
theorem C8_initService_spawns_sharded_workers
    (s : PrototypeMultiProcessingReadingService) (datapipe : DataPipe) (fresh : Nat)
    (hK : 0 < s.num_workers) :
    ∃ newProcs newDps,
      initService s datapipe fresh =
        ({ s with processes := s.processes ++ newProcs,
                  datapipes := s.datapipes ++ newDps },
         ReturnedPipe.merged (s.datapipes ++ newDps)) ∧
      newProcs.length = s.num_workers ∧
      newDps.length = s.num_workers ∧
      (∀ i, i < s.num_workers →
        newProcs[i]? = some ⟨⟨apply_sharding datapipe s.num_workers i⟩,
          fresh + 2*i, fresh + 2*i + 1⟩ ∧
        newDps[i]? = some ⟨fresh + 2*i, fresh + 2*i + 1⟩) ∧
      (∀ i j, i < s.num_workers → j < s.num_workers → i ≠ j →
        ∀ p q, newProcs[i]? = some p → newProcs[j]? = some q →
          p.req_queue ≠ q.req_queue ∧ p.req_queue ≠ q.res_queue ∧
          p.res_queue ≠ q.req_queue ∧ p.res_queue ≠ q.res_queue) := by
  refine ⟨(initLoop s.num_workers datapipe (List.range s.num_workers) fresh).1,
          (initLoop s.num_workers datapipe (List.range s.num_workers) fresh).2,
          ?_, ?_, ?_, ?_, ?_⟩
  · rw [initService, if_neg (by omega : ¬ s.num_workers = 0)]
  · rw [(initLoop_length s.num_workers datapipe (List.range s.num_workers) fresh).1,
        List.length_range]
  · rw [(initLoop_length s.num_workers datapipe (List.range s.num_workers) fresh).2,
        List.length_range]
  · intro i hi
    have h := initLoop_get s.num_workers datapipe (List.range s.num_workers) fresh i
    rw [List.getElem?_range hi] at h
    simp only [Option.map_some'] at h
    exact ⟨h.1, h.2⟩
  · intro i j hi hj hij p q hp hq
    have h1 := (initLoop_get s.num_workers datapipe (List.range s.num_workers) fresh i).1
    have h2 := (initLoop_get s.num_workers datapipe (List.range s.num_workers) fresh j).1
    rw [List.getElem?_range hi] at h1
    rw [List.getElem?_range hj] at h2
    simp only [Option.map_some'] at h1 h2
    rw [hp] at h1
    rw [hq] at h2
    simp only [Option.some.injEq] at h1 h2
    subst h1
    subst h2
    refine ⟨?_, ?_, ?_, ?_⟩ <;> simp <;> omega

/-- Witness for C8 with two workers over a bare source pipeline. -/
theorem C8_witness :
    0 < (⟨2, [], []⟩ : PrototypeMultiProcessingReadingService).num_workers ∧
    (∃ newProcs newDps,
      initService ⟨2, [], []⟩ (DataPipe.source none) 10 =
        ({ (⟨2, [], []⟩ : PrototypeMultiProcessingReadingService) with
             processes := ([] : List ProcEntry) ++ newProcs,
             datapipes := ([] : List QueueWrapper) ++ newDps },
         ReturnedPipe.merged (([] : List QueueWrapper) ++ newDps)) ∧
      newProcs.length = 2 ∧
      newDps.length = 2 ∧
      (∀ i, i < 2 →
        newProcs[i]? = some ⟨⟨apply_sharding (DataPipe.source none) 2 i⟩,
          10 + 2*i, 10 + 2*i + 1⟩ ∧
        newDps[i]? = some ⟨10 + 2*i, 10 + 2*i + 1⟩) ∧
      (∀ i j, i < 2 → j < 2 → i ≠ j →
        ∀ p q, newProcs[i]? = some p → newProcs[j]? = some q →
          p.req_queue ≠ q.req_queue ∧ p.req_queue ≠ q.res_queue ∧
          p.res_queue ≠ q.req_queue ∧ p.res_queue ≠ q.res_queue)) :=
  ⟨by decide,
   C8_initService_spawns_sharded_workers ⟨2, [], []⟩ (DataPipe.source none) 10 (by decide)⟩

/-- C9: for `num_workers = 0`, initialize is a no-op passthrough: the state
is untouched (no process spawned, no queue wrapper created) and the input
datapipe is returned unchanged, with no merge wrapper. -/
theorem C9_initService_zero_passthrough (s : PrototypeMultiProcessingReadingService)
    (datapipe : DataPipe) (fresh : Nat) (h : s.num_workers = 0) :
    initService s datapipe fresh = (s, ReturnedPipe.passthrough datapipe) := by
  rw [initService, if_pos h]

/-- Witness for C9. -/
theorem C9_witness :
    (⟨0, [], [⟨4, 5⟩]⟩ : PrototypeMultiProcessingReadingService).num_workers = 0 ∧
    initService ⟨0, [], [⟨4, 5⟩]⟩ (DataPipe.source none) 3 =
      (⟨0, [], [⟨4, 5⟩]⟩, ReturnedPipe.passthrough (DataPipe.source none)) :=
  ⟨rfl, C9_initService_zero_passthrough ⟨0, [], [⟨4, 5⟩]⟩ (DataPipe.source none) 3 rfl⟩

/-- C10 (frame property of finalize): a completed finalize empties
`self.processes` and changes nothing else — the resulting state is exactly
the old state with an empty process list, so `self.datapipes` still holds
the queue wrappers of the terminated workers — and a subsequent initialize
with `num_workers > 0` appends to (rather than replaces) both lists. -/
theorem C10_finalize_frame (ack : Nat → Bool)
    (s s' : PrototypeMultiProcessingReadingService) (sent : List Nat)
    (h : finalizeService ack s = (s', sent, none)) :
    s' = { s with processes := [] } ∧
    s'.datapipes = s.datapipes ∧
    s'.num_workers = s.num_workers ∧
    (∀ (s2 : PrototypeMultiProcessingReadingService) (datapipe : DataPipe) (fresh : Nat),
      s2.num_workers ≠ 0 →
      (initService s2 datapipe fresh).1 =
        { s2 with
            processes := s2.processes ++
              (initLoop s2.num_workers datapipe (List.range s2.num_workers) fresh).1,
            datapipes := s2.datapipes ++
              (initLoop s2.num_workers datapipe (List.range s2.num_workers) fresh).2 }) := by
  have hmain : s' = { s with processes := [] } := by
    unfold finalizeService at h
    cases hm : (finalizeLoop ack s.processes).2 with
    | some r => rw [hm] at h; simp at h
    | none =>
      rw [hm] at h
      simp only [Prod.mk.injEq] at h
      exact h.1.symm
  refine ⟨hmain, by rw [hmain], by rw [hmain], ?_⟩
  intro s2 datapipe fresh h2
  rw [initService, if_neg h2]

/-- Witness for C10. -/
theorem C10_witness :
    finalizeService (fun _ => true) ⟨1, [⟨⟨DataPipe.source none⟩, 8, 9⟩], [⟨8, 9⟩]⟩ =
      (⟨1, [], [⟨8, 9⟩]⟩, [8], none) ∧
    ((⟨1, [], [⟨8, 9⟩]⟩ : PrototypeMultiProcessingReadingService) =
       { (⟨1, [⟨⟨DataPipe.source none⟩, 8, 9⟩], [⟨8, 9⟩]⟩ :
           PrototypeMultiProcessingReadingService) with processes := [] } ∧
     (⟨1, [], [⟨8, 9⟩]⟩ : PrototypeMultiProcessingReadingService).datapipes =
       (⟨1, [⟨⟨DataPipe.source none⟩, 8, 9⟩], [⟨8, 9⟩]⟩ :
         PrototypeMultiProcessingReadingService).datapipes ∧
     (⟨1, [], [⟨8, 9⟩]⟩ : PrototypeMultiProcessingReadingService).num_workers =
       (⟨1, [⟨⟨DataPipe.source none⟩, 8, 9⟩], [⟨8, 9⟩]⟩ :
         PrototypeMultiProcessingReadingService).num_workers ∧
     (∀ (s2 : PrototypeMultiProcessingReadingService) (datapipe : DataPipe) (fresh : Nat),
       s2.num_workers ≠ 0 →
       (initService s2 datapipe fresh).1 =
         { s2 with
             processes := s2.processes ++
               (initLoop s2.num_workers datapipe (List.range s2.num_workers) fresh).1,
             datapipes := s2.datapipes ++
               (initLoop s2.num_workers datapipe (List.range s2.num_workers) fresh).2 })) :=
  ⟨rfl, C10_finalize_frame (fun _ => true)
     ⟨1, [⟨⟨DataPipe.source none⟩, 8, 9⟩], [⟨8, 9⟩]⟩ ⟨1, [], [⟨8, 9⟩]⟩ [8] (by decide)⟩
